import Mathlib

/-
Shallow embedding of the log-parsing and aggregation engine of the
bonos-palace Discord bot (source: the variant in src/unnamed/part_000;
src/bot.js is a near-duplicate with slightly simpler regexes).

Text is modelled as `List Char`.  JavaScript's whitespace class is modelled
by the ASCII whitespace characters (space, tab, newline, carriage return),
which covers every input the claims are about.  The regexes of the source
are each translated into a specialised scanner that replicates JavaScript
leftmost-match semantics; in each regex every pair of adjacent quantified
pieces draws from disjoint character classes, so greedy scanning without
backtracking computes the same match the JavaScript engine does.
-/

def isSpaceB (c : Char) : Bool :=
  c == ' ' || c == '\t' || c == '\n' || c == '\r'

def isDigitB (c : Char) : Bool :=
  '0' ≤ c && c ≤ '9'

def isUpperB (c : Char) : Bool :=
  'A' ≤ c && c ≤ 'Z'

def isLowerB (c : Char) : Bool :=
  'a' ≤ c && c ≤ 'z'

def isLetterB (c : Char) : Bool :=
  isUpperB c || isLowerB c

def toUpperC (c : Char) : Char :=
  if isLowerB c then Char.ofNat (c.toNat - 32) else c

def toLowerC (c : Char) : Char :=
  if isUpperB c then Char.ofNat (c.toNat + 32) else c

def toLowerL (l : List Char) : List Char := l.map toLowerC

def chars (s : String) : List Char := s.data

/-- trim: drop leading and trailing whitespace, as String.prototype.trim. -/
def trimL (l : List Char) : List Char :=
  ((l.dropWhile isSpaceB).reverse.dropWhile isSpaceB).reverse

/-- cleanText strips the Discord markup characters and trims.  The source
chains five global replaces (double asterisk, backtick, asterisk,
underscore, tilde); their joint effect is to delete every occurrence of the
four characters, modelled as one filter. -/
def cleanText (l : List Char) : List Char :=
  trimL (l.filter (fun c => !(c == '*' || c == Char.ofNat 96 || c == '_' || c == '~')))

/-- prefixOfB needle l: needle is a prefix of l (String.prototype.startsWith). -/
def prefixOfB : List Char → List Char → Bool
  | [], _ => true
  | _ :: _, [] => false
  | a :: as, b :: bs => a == b && prefixOfB as bs

/-- hasSub needle hay: hay contains needle (String.prototype.includes). -/
def hasSub (needle : List Char) : List Char → Bool
  | [] => needle.isEmpty
  | c :: rest => prefixOfB needle (c :: rest) || hasSub needle rest

def skipSpaces (l : List Char) : List Char := l.dropWhile isSpaceB

/-- exactly n letters (A-Z or a-z, the regex has the i flag). -/
def takeLetters : Nat → List Char → Option (List Char × List Char)
  | 0, l => some ([], l)
  | _ + 1, [] => none
  | n + 1, c :: rest =>
    if isLetterB c then
      match takeLetters n rest with
      | some (g, r) => some (c :: g, r)
      | none => none
    else none

/-- exactly n digits. -/
def takeDigits : Nat → List Char → Option (List Char × List Char)
  | 0, l => some ([], l)
  | _ + 1, [] => none
  | n + 1, c :: rest =>
    if isDigitB c then
      match takeDigits n rest with
      | some (g, r) => some (c :: g, r)
      | none => none
    else none

/-- the shared DNI core pattern after an opening bracket:
whitespace, three letters, whitespace, five digits — the capture group of
the source regex (it keeps the internal whitespace).  Returns the captured
characters and the rest of the input. -/
def dniCore (l : List Char) : Option (List Char × List Char) :=
  match takeLetters 3 (skipSpaces l) with
  | none => none
  | some (ls, r1) =>
    match takeDigits 5 (skipSpaces r1) with
    | none => none
    | some (ds, r2) => some (ls ++ r1.takeWhile isSpaceB ++ ds, r2)

/-- one attempt of the extractDNI regex at the current position:
an opening bracket, the DNI core, whitespace, a closing bracket. -/
def dniAt (l : List Char) : Option (List Char) :=
  match l with
  | '[' :: r0 =>
    match dniCore r0 with
    | none => none
    | some (g, r2) =>
      match skipSpaces r2 with
      | ']' :: _ => some g
      | _ => none
  | _ => none

def scanDNI : List Char → Option (List Char)
  | [] => none
  | c :: rest =>
    match dniAt (c :: rest) with
    | some g => some g
    | none => scanDNI rest

/-- strip whitespace from the capture and upper-case it, as the source does. -/
def normalizeDNI (g : List Char) : List Char :=
  (g.filter (fun c => !(isSpaceB c))).map toUpperC

/-- extractDNI: leftmost match of the bracketed-identifier regex on the
cleaned text, normalized; null when there is no match. -/
def extractDNI (text : List Char) : Option (List Char) :=
  match scanDNI (cleanText text) with
  | some g => some (normalizeDNI g)
  | none => none

/-- case-insensitive literal match as in the i-flagged regexes; returns the
rest of the input on success. -/
def matchCI : List Char → List Char → Option (List Char)
  | [], l => some l
  | _ :: _, [] => none
  | p :: ps, c :: cs => if toLowerC c == toLowerC p then matchCI ps cs else none

/-- at least one whitespace character, then skip the rest of the run. -/
def spaces1 : List Char → Option (List Char)
  | [] => none
  | c :: r => if isSpaceB c then some (skipSpaces r) else none

/-- the tail of the extractName regex: whitespace, the word ha, whitespace,
then one of the three verbs, all case-insensitive. -/
def verbTail (l : List Char) : Bool :=
  match spaces1 l with
  | none => false
  | some r1 =>
    match matchCI (chars "ha") r1 with
    | none => false
    | some r2 =>
      match spaces1 r2 with
      | none => false
      | some r3 =>
        (matchCI (chars "retirado") r3).isSome ||
        (matchCI (chars "guardado") r3).isSome ||
        (matchCI (chars "enviado") r3).isSome

/-- isH: the characters excluded by the negated class of the i-flagged
extractName regex. -/
def isH (c : Char) : Bool := c == 'h' || c == 'H'

/-- the lazy group of extractName: one or more non-h characters, extended
one character at a time until the verb tail matches. -/
def growName : List Char → Option (List Char)
  | [] => none
  | c :: rest =>
    if isH c then none
    else if verbTail rest then some [c]
    else
      match growName rest with
      | some g => some (c :: g)
      | none => none

/-- one attempt of the extractName regex at the current position. -/
def nameAt (l : List Char) : Option (List Char) :=
  match l with
  | '[' :: r0 =>
    match dniCore r0 with
    | none => none
    | some (_, r2) =>
      match skipSpaces r2 with
      | ']' :: r3 =>
        match spaces1 r3 with
        | none => none
        | some r4 => growName r4
      | _ => none
  | _ => none

def scanName : List Char → Option (List Char)
  | [] => none
  | c :: rest =>
    match nameAt (c :: rest) with
    | some g => some g
    | none => scanName rest

/-- extractName: leftmost match on the cleaned text, capture trimmed. -/
def extractName (text : List Char) : Option (List Char) :=
  match scanName (cleanText text) with
  | some g => some (trimL g)
  | none => none

/-- one or more digits (greedy). -/
def takeDigits1 (l : List Char) : Option (List Char × List Char) :=
  match l.takeWhile isDigitB with
  | [] => none
  | ds => some (ds, l.dropWhile isDigitB)

/-- zero or more comma-plus-three-digit groups (greedy). -/
def commaGroups : List Char → List Char × List Char
  | ',' :: a :: b :: c :: r =>
    if isDigitB a && isDigitB b && isDigitB c then
      match commaGroups r with
      | (g, r2) => (',' :: a :: b :: c :: g, r2)
    else ([], ',' :: a :: b :: c :: r)
  | l => ([], l)

/-- the optional two-digit decimal fraction. -/
def decPart : List Char → List Char
  | '.' :: a :: b :: _ =>
    if isDigitB a && isDigitB b then ['.', a, b] else []
  | _ => []

/-- one attempt of the extractAmount regex at the current position:
a dollar sign, whitespace, digits, comma groups, optional decimals.
Returns the capture group. -/
def amountAt (l : List Char) : Option (List Char) :=
  match l with
  | '$' :: r0 =>
    match takeDigits1 (skipSpaces r0) with
    | none => none
    | some (ds, r2) =>
      match commaGroups r2 with
      | (cg, r3) => some (ds ++ cg ++ decPart r3)
  | _ => none

def scanAmount : List Char → Option (List Char)
  | [] => none
  | c :: rest =>
    match amountAt (c :: rest) with
    | some g => some g
    | none => scanAmount rest

def digitVal (c : Char) : Nat := c.toNat - 48

def natOfDigits (l : List Char) : Nat :=
  l.foldl (fun a c => 10 * a + digitVal c) 0

/-- parseInt on a string that starts with a digit: the value of the leading
digit run (a decimal point and anything after it are ignored). -/
def parseIntL (l : List Char) : Nat := natOfDigits (l.takeWhile isDigitB)

/-- extractAmount: leftmost match of the dollar-amount regex on the cleaned
text, commas stripped, then parseInt; 0 when there is no match. -/
def extractAmount (text : List Char) : Nat :=
  match scanAmount (cleanText text) with
  | some g => parseIntL (g.filter (fun c => !(c == ',')))
  | none => 0

/-- SaleEvent: the object pushed onto an employee's sales list.  The
timestamp and the message id are opaque; they are modelled as naturals. -/
structure Sale where
  amount : Nat
  date : Nat
  messageId : Nat
deriving DecidableEq

structure Employee where
  name : List Char
  sales : List Sale
deriving DecidableEq

/-- the employees object: a string-keyed map in key-insertion order, as a
JavaScript object literal. -/
abbrev State := List (List Char × Employee)

structure Msg where
  content : List Char
  createdAt : Nat
  id : Nat
deriving DecidableEq

/-- property lookup on the employees object. -/
def findEmp (k : List Char) : State → Option Employee
  | [] => none
  | (k2, e) :: rest => if k2 = k then some e else findEmp k rest

/-- property assignment on the employees object: an existing key is updated
in place, a new key is appended (JavaScript insertion order). -/
def setEmp (k : List Char) (e : Employee) : State → State
  | [] => [(k, e)]
  | (k2, e2) :: rest =>
    if k2 = k then (k, e) :: rest else (k2, e2) :: setEmp k e rest

def salesOf (s : State) (k : List Char) : List Sale :=
  match findEmp k s with
  | some e => e.sales
  | none => []

def nameOf? (s : State) (k : List Char) : Option (List Char) :=
  match findEmp k s with
  | some e => some e.name
  | none => none

/-- the sale-branch guard of processLog: the lower-cased cleaned content
contains both trigger phrases. -/
def saleCandidate (m : Msg) : Bool :=
  hasSub (chars "ha pagado una factura") (toLowerL (cleanText m.content)) &&
  hasSub (chars "de [") (toLowerL (cleanText m.content))

/-- the name-branch guard of processLog: the lower-cased cleaned content
contains one of the three verb phrases. -/
def nameCandidate (m : Msg) : Bool :=
  hasSub (chars "ha retirado") (toLowerL (cleanText m.content)) ||
  hasSub (chars "ha guardado") (toLowerL (cleanText m.content)) ||
  hasSub (chars "ha enviado") (toLowerL (cleanText m.content))

/-- the SaleEvent built from a message. -/
def saleOf (m : Msg) : Sale :=
  { amount := extractAmount m.content, date := m.createdAt, messageId := m.id }

/-- the second if statement of processLog (there is no else between the
two: a rejected sale candidate falls through to this check). -/
def nameBranch (s : State) (m : Msg) : Bool × State :=
  if nameCandidate m then
    match extractDNI m.content, extractName m.content with
    | some d, some n =>
      match findEmp d s with
      | none => (false, setEmp d { name := n, sales := [] } s)
      | some e => (false, setEmp d { e with name := n } s)
    | _, _ => (false, s)
  else (false, s)

/-- processLog: classify a message, mutate the employees object, return
whether a sale was recorded. -/
def processLog (s : State) (m : Msg) : Bool × State :=
  if saleCandidate m then
    match extractDNI m.content with
    | some d =>
      if 0 < extractAmount m.content then
        let emp :=
          match findEmp d s with
          | some e => e
          | none => { name := d, sales := [] }
        (true, setEmp d { emp with sales := emp.sales ++ [saleOf m] } s)
      else nameBranch s m
    | none => nameBranch s m
  else nameBranch s m

/-- resetWeek empties the employees object. -/
def resetWeek : State := []

/-
IEEE-754 double-precision model, exact on rationals, for the one
computation of the source that is genuinely fractional:
Math.round(totalSales * (bonusPercentage / 100)).  The model covers
positive arguments in the normal range (every value these claims touch);
integers below 2 to the 53rd are represented exactly, so integer sums are
modelled as exact naturals.
-/

/-- a nonnegative rational as an unreduced numerator-denominator pair; the
denominator is positive by construction in every use below. -/
structure PosQ where
  n : Nat
  d : Nat
deriving DecidableEq

def mulQ (a b : PosQ) : PosQ := ⟨a.n * b.n, a.d * b.d⟩

/-- a < b on nonnegative fractions. -/
def ltQ (a b : PosQ) : Bool := a.n * b.d < b.n * a.d

/-- two to an integer power, as a fraction. -/
def pow2Q : Int → PosQ
  | Int.ofNat k => ⟨2 ^ k, 1⟩
  | Int.negSucc k => ⟨1, 2 ^ (k + 1)⟩

/-- floor of the base-2 logarithm of a positive natural, by fuelled
halving (the fuel is consumed faster than the argument shrinks, so the
first argument itself is always enough fuel). -/
def log2fuel : Nat → Nat → Nat
  | 0, _ => 0
  | fuel + 1, n => if 2 ≤ n then log2fuel fuel (n / 2) + 1 else 0

def log2N (n : Nat) : Nat := log2fuel n n

/-- floor of the base-2 logarithm of a positive fraction: the numerator
and denominator bit lengths give the floor up to one, fixed by a compare. -/
def log2floorQ (q : PosQ) : Int :=
  let a : Int := (log2N q.n : Int) - (log2N q.d : Int)
  if ltQ q (pow2Q a) then a - 1 else a

/-- round a nonnegative fraction to the nearest natural, ties to even. -/
def rhe (q : PosQ) : Nat :=
  let f := q.n / q.d
  let r2 := 2 * (q.n - f * q.d)
  if r2 < q.d then f
  else if q.d < r2 then f + 1
  else if f % 2 = 0 then f else f + 1

/-- round a nonnegative fraction to the nearest double (round to nearest,
ties to even, 53-bit significand; the normal range, which covers every
value in question). -/
def flD (q : PosQ) : PosQ :=
  if q.n = 0 then ⟨0, 1⟩
  else
    let e := log2floorQ q
    mulQ ⟨rhe (mulQ q (pow2Q (52 - e))), 1⟩ (pow2Q (e - 52))

/-- Math.round on a nonnegative double value: the closest integer, ties
toward positive infinity, that is floor(q + 1/2). -/
def jsMathRound (q : PosQ) : Nat := (2 * q.n + q.d) / (2 * q.d)

/-- the bonus computed by the source: Math.round of the double product of
the total and the double quotient of the percentage by 100. -/
def jsBonus (t p : Nat) : Nat :=
  jsMathRound (flD (mulQ ⟨t, 1⟩ (flD ⟨p, 100⟩)))

def totalOfSales (l : List Sale) : Nat :=
  l.foldl (fun a s => a + s.amount) 0

structure BonusLine where
  dni : List Char
  name : List Char
  salesCount : Nat
  totalSales : Nat
  bonus : Nat
deriving DecidableEq

def lineOf (p : Nat) (kv : List Char × Employee) : BonusLine :=
  { dni := kv.1
    name := kv.2.name
    salesCount := kv.2.sales.length
    totalSales := totalOfSales kv.2.sales
    bonus := jsBonus (totalOfSales kv.2.sales) p }

/-- insert into a descending-by-totalSales list, after every entry with a
greater or equal key: the stable descending sort of Array.prototype.sort
with the comparator of the source. -/
def insertDesc (x : BonusLine) : List BonusLine → List BonusLine
  | [] => [x]
  | y :: ys =>
    if x.totalSales ≤ y.totalSales then y :: insertDesc x ys else x :: y :: ys

def sortDesc (l : List BonusLine) : List BonusLine :=
  l.foldl (fun acc x => insertDesc x acc) []

/-- calculateTotals: one line per employee, sorted descending by total. -/
def calculateTotals (s : State) (p : Nat) : List BonusLine :=
  sortDesc (s.map (lineOf p))

def sortedDescB : List BonusLine → Bool
  | a :: b :: r => (b.totalSales ≤ a.totalSales) && sortedDescB (b :: r)
  | _ => true

/-
Historical backfill driver (the !leer handler): paginated fetch of the
logs channel, newest first, pages of up to 100, then chronological replay
through processLog.  The history is a list of messages, newest first.
-/

/-- the date filter: skip messages older than the start date. -/
def sdSkip (sd : Option Nat) (m : Msg) : Bool :=
  match sd with
  | some d => m.createdAt < d
  | none => false

/-- the count limit check of the source (limit is null in date mode). -/
def limHit (lim : Option Nat) (t : Nat) : Bool :=
  match lim with
  | some l => l ≤ t
  | none => false

/-- the for-of loop over one fetched page: returns the messages pushed,
the new running count, and whether the loop broke on the limit. -/
def pageScan (sd lim : Option Nat) : List Msg → Nat → List Msg × Nat × Bool
  | [], t => ([], t, false)
  | m :: rest, t =>
    if sdSkip sd m then pageScan sd lim rest t
    else
      if limHit lim (t + 1) then ([m], t + 1, true)
      else
        match pageScan sd lim rest (t + 1) with
        | (c, t2, b) => (m :: c, t2, b)

/-- the body of the while loop of the !leer handler, with a fuel that
bounds the number of pages (one page consumes 100 history entries and one
unit of fuel, so the history length is always enough fuel).  The remaining
history plays the role of the paginated source: a fetch returns its first
up-to-100 messages, and advancing the before-cursor drops them. -/
def fetchGo (sd lim : Option Nat) : Nat → List Msg → Nat → List Msg × Nat
  | 0, _, t => ([], t)
  | fuel + 1, hist, t =>
    match hist with
    | [] => ([], t)
    | _ :: _ =>
      match pageScan sd lim (hist.take 100) t with
      | (c, t1, broke) =>
        if broke then (c, t1)
        else if limHit lim t1 then (c, t1)
        else if (hist.take 100).length < 100 then (c, t1)
        else
          match fetchGo sd lim fuel (hist.drop 100) t1 with
          | (c2, t2) => (c ++ c2, t2)

def fetchLoop (sd lim : Option Nat) (hist : List Msg) (t : Nat) : List Msg × Nat :=
  fetchGo sd lim hist.length hist t

/-- replay a list of messages through processLog, counting the ones
processed as sales. -/
def processAll : State → List Msg → State × Nat
  | s, [] => (s, 0)
  | s, m :: ms =>
    match processLog s m with
    | (r, s1) =>
      match processAll s1 ms with
      | (s2, n) => (s2, (if r then 1 else 0) + n)

structure BackfillRes where
  finalState : State
  totalFetched : Nat
  processed : Nat
deriving DecidableEq

/-- the whole !leer run: fetch a bounded window, reverse it into
chronological order, replay it. -/
def runBackfill (s : State) (hist : List Msg) (sd lim : Option Nat) : BackfillRes :=
  { finalState := (processAll s (fetchLoop sd lim hist 0).1.reverse).1
    totalFetched := (fetchLoop sd lim hist 0).2
    processed := (processAll s (fetchLoop sd lim hist 0).1.reverse).2 }

/-- the sale branch accepts: both trigger phrases, an identifier, and a
positive amount. -/
def saleAccepted (m : Msg) : Bool :=
  saleCandidate m &&
  match extractDNI m.content with
  | some _ => 0 < extractAmount m.content
  | none => false

theorem findEmp_setEmp_self (k : List Char) (e : Employee) (s : State) :
    findEmp k (setEmp k e s) = some e := by
  induction s with
  | nil => simp [setEmp, findEmp]
  | cons kv rest ih =>
    obtain ⟨k2, e2⟩ := kv
    by_cases h : k2 = k
    · simp [setEmp, findEmp, h]
    · simp [setEmp, findEmp, h, ih]

theorem findEmp_setEmp_ne (q k : List Char) (e : Employee) (s : State) (h : q ≠ k) :
    findEmp q (setEmp k e s) = findEmp q s := by
  have hkq : ¬k = q := fun hh => h hh.symm
  induction s with
  | nil => simp [setEmp, findEmp, hkq]
  | cons kv rest ih =>
    obtain ⟨k2, e2⟩ := kv
    by_cases h2 : k2 = k
    · subst h2
      simp [setEmp, findEmp, hkq]
    · simp [setEmp, findEmp, h2, ih]

theorem salesOf_setEmp_self (k : List Char) (e : Employee) (s : State) :
    salesOf (setEmp k e s) k = e.sales := by
  simp [salesOf, findEmp_setEmp_self]

theorem salesOf_setEmp_ne (q k : List Char) (e : Employee) (s : State) (h : q ≠ k) :
    salesOf (setEmp k e s) q = salesOf s q := by
  simp [salesOf, findEmp_setEmp_ne q k e s h]

/-- processLog on an accepted sale: the employee record is created if
needed (display name defaulting to the identifier) and the SaleEvent is
appended; the name-update branch is not reached. -/
theorem processLog_sale (s : State) (m : Msg) (d : List Char)
    (hc : saleCandidate m = true) (hd : extractDNI m.content = some d)
    (ha : 0 < extractAmount m.content) :
    processLog s m =
      (true, setEmp d { name := (nameOf? s d).getD d, sales := salesOf s d ++ [saleOf m] } s) := by
  unfold processLog
  rw [hc, hd]
  simp only [ha, if_true, ite_true]
  cases hf : findEmp d s with
  | none => simp [nameOf?, salesOf, hf]
  | some e => simp [nameOf?, salesOf, hf]

/-- processLog falls through to the second if whenever the sale branch
does not accept. -/
theorem processLog_notSale (s : State) (m : Msg) (h : saleAccepted m = false) :
    processLog s m = nameBranch s m := by
  unfold saleAccepted at h
  unfold processLog
  cases hc : saleCandidate m with
  | false => simp
  | true =>
    rw [hc] at h
    simp only [Bool.true_and] at h
    cases hd : extractDNI m.content with
    | none => simp
    | some d =>
      rw [hd] at h
      simp only [decide_eq_false_iff_not] at h
      simp [h]

/-- the name branch with an identifier and a name upserts the display
name, keeping the sale list (empty for a new identifier). -/
theorem nameBranch_upsert (s : State) (m : Msg) (d n : List Char)
    (hnc : nameCandidate m = true) (hd : extractDNI m.content = some d)
    (hn : extractName m.content = some n) :
    nameBranch s m = (false, setEmp d { name := n, sales := salesOf s d } s) := by
  unfold nameBranch
  rw [hnc, hd, hn]
  simp only [if_true, ite_true]
  cases hf : findEmp d s with
  | none => simp [salesOf, hf]
  | some e => simp [salesOf, hf]

theorem totalOfSales_go (l : List Sale) (a : Nat) :
    l.foldl (fun a s => a + s.amount) a = a + totalOfSales l := by
  induction l generalizing a with
  | nil => simp [totalOfSales]
  | cons x xs ih =>
    simp only [totalOfSales, List.foldl_cons]
    rw [ih (a + x.amount), ih (0 + x.amount)]
    omega

theorem totalOfSales_append (l1 l2 : List Sale) :
    totalOfSales (l1 ++ l2) = totalOfSales l1 + totalOfSales l2 := by
  show (l1 ++ l2).foldl (fun a s => a + s.amount) 0 = totalOfSales l1 + totalOfSales l2
  rw [List.foldl_append, totalOfSales_go l2]
  rfl

theorem insertDesc_perm (x : BonusLine) (l : List BonusLine) :
    List.Perm (insertDesc x l) (x :: l) := by
  induction l with
  | nil => simp [insertDesc]
  | cons y ys ih =>
    by_cases h : x.totalSales ≤ y.totalSales
    · have he : insertDesc x (y :: ys) = y :: insertDesc x ys := by simp [insertDesc, h]
      rw [he]
      exact (ih.cons y).trans (List.Perm.swap x y ys)
    · have he : insertDesc x (y :: ys) = x :: y :: ys := by simp [insertDesc, h]
      rw [he]

theorem foldl_insertDesc_perm (l : List BonusLine) :
    ∀ acc, List.Perm (l.foldl (fun a x => insertDesc x a) acc) (acc ++ l) := by
  induction l with
  | nil => intro acc; simp
  | cons x xs ih =>
    intro acc
    simp only [List.foldl_cons]
    have h1 := ih (insertDesc x acc)
    have h2 : List.Perm (insertDesc x acc ++ xs) ((x :: acc) ++ xs) :=
      (insertDesc_perm x acc).append_right xs
    have h3 : List.Perm ((x :: acc) ++ xs) (acc ++ x :: xs) := List.perm_middle.symm
    exact (h1.trans h2).trans h3

theorem sortDesc_perm (l : List BonusLine) : List.Perm (sortDesc l) l := by
  simpa using foldl_insertDesc_perm l []

theorem pairwise_insertDesc (x : BonusLine) (l : List BonusLine)
    (h : l.Pairwise (fun a b => b.totalSales ≤ a.totalSales)) :
    (insertDesc x l).Pairwise (fun a b => b.totalSales ≤ a.totalSales) := by
  induction l with
  | nil => simp [insertDesc]
  | cons y ys ih =>
    rw [List.pairwise_cons] at h
    obtain ⟨hy, hys⟩ := h
    by_cases hxy : x.totalSales ≤ y.totalSales
    · have he : insertDesc x (y :: ys) = y :: insertDesc x ys := by simp [insertDesc, hxy]
      rw [he, List.pairwise_cons]
      refine ⟨?_, ih hys⟩
      intro z hz
      rcases List.mem_cons.mp ((insertDesc_perm x ys).mem_iff.mp hz) with rfl | hz2
      · exact hxy
      · exact hy z hz2
    · have he : insertDesc x (y :: ys) = x :: y :: ys := by simp [insertDesc, hxy]
      rw [he, List.pairwise_cons]
      refine ⟨?_, List.Pairwise.cons hy hys⟩
      intro z hz
      rcases List.mem_cons.mp hz with rfl | hz2
      · omega
      · have := hy z hz2
        omega

theorem pairwise_sortDesc (l : List BonusLine) :
    (sortDesc l).Pairwise (fun a b => b.totalSales ≤ a.totalSales) := by
  have hgo : ∀ (k acc : List BonusLine),
      acc.Pairwise (fun a b => b.totalSales ≤ a.totalSales) →
      (List.foldl (fun a x => insertDesc x a) acc k).Pairwise (fun a b => b.totalSales ≤ a.totalSales) := by
    intro k
    induction k with
    | nil => intro acc h; simpa using h
    | cons x xs ih => intro acc h; exact ih _ (pairwise_insertDesc x acc h)
  exact hgo l [] (by simp)

/-- the two-employee example state of the spec: totals 1000 and 500. -/
def exState : State :=
  [(chars "AAA11111", { name := chars "Ana", sales := [{ amount := 1000, date := 0, messageId := 1 }] }),
   (chars "BBB22222", { name := chars "Bea", sales := [{ amount := 500, date := 0, messageId := 2 }] })]

/-- a one-employee state with a single sale of 50. -/
def cexState : State :=
  [(chars "CCC33333", { name := chars "Carla", sales := [{ amount := 50, date := 0, messageId := 9 }] })]

/-- C2 counterexample: the claim says identifier extraction normalizes
"[ a b c 1 2 3 4 5 ]" to ABC12345, but the regex requires the three
letters and the five digits to each be contiguous, so extraction returns
null on that input. -/
theorem c2_counterexample :
    extractDNI (chars "[ a b c 1 2 3 4 5 ]") = none := by decide

/-- C2 (amended): identifier extraction is case-insensitive and tolerates
whitespace between the bracket and the letters, between the letter block
and the digit block, and before the closing bracket; "[ABC12345]" and
"[abc 12345]" both normalize to ABC12345, but whitespace interleaved
inside the letter or digit block is not accepted: "[ a b c 1 2 3 4 5 ]"
yields null. -/
theorem c2_amended :
    extractDNI (chars "[ABC12345]") = some (chars "ABC12345") ∧
    extractDNI (chars "[abc 12345]") = some (chars "ABC12345") ∧
    extractDNI (chars "[ ABC 12345 ]") = some (chars "ABC12345") ∧
    extractDNI (chars "[ a b c 1 2 3 4 5 ]") = none := by decide

/-- C3: amount extraction accepts a dollar-prefixed number with comma
thousands separators and a two-digit fraction, strips the separators, and
truncates the fraction: an input containing $1,234.99 yields 1234, not
1235. -/
theorem c3 :
    extractAmount (chars "$1,234.99") = 1234 ∧
    extractAmount (chars "[GHI67890] Gil ha pagado una factura de $1,234.99") = 1234 := by decide

/-- C4 counterexample: the claim says bonus = round(totalSales * rate /
100) with round-half-up semantics; at totalSales 50 and rate 29 the exact
value is 14.5, whose half-up rounding is 15, but the code computes
Math.round on the double product 50 * 0.29, which is strictly below 14.5,
so the bonus is 14. -/
theorem c4_counterexample :
    calculateTotals cexState 29 =
      [{ dni := chars "CCC33333", name := chars "Carla", salesCount := 1, totalSales := 50, bonus := 14 }] ∧
    (50 * 29 + 50) / 100 = 15 := by decide

/-- C4 (amended): for every aggregate state and rate between 0 and 100,
the bonus calculator returns one line per employee with totalSales the sum
of that employee's sale amounts and bonus equal to Math.round applied to
the IEEE-754 double product totalSales * (rate / 100) — which can differ
from exact round-half-up when the double product falls below a half-integer
boundary — and the list is sorted descending by totalSales; for employees
with totals 1000 and 500 at rate 20 it yields the first with bonus 200
before the second with bonus 100. -/
theorem c4_amended (s : State) (p : Nat) (hp : p ≤ 100) :
    (calculateTotals s p).length = s.length ∧
    (∀ kv ∈ s,
      ({ dni := kv.1, name := kv.2.name, salesCount := kv.2.sales.length,
         totalSales := totalOfSales kv.2.sales,
         bonus := jsBonus (totalOfSales kv.2.sales) p } : BonusLine) ∈ calculateTotals s p) ∧
    (calculateTotals s p).Pairwise (fun a b => b.totalSales ≤ a.totalSales) ∧
    calculateTotals exState 20 =
      [{ dni := chars "AAA11111", name := chars "Ana", salesCount := 1, totalSales := 1000, bonus := 200 },
       { dni := chars "BBB22222", name := chars "Bea", salesCount := 1, totalSales := 500, bonus := 100 }] := by
  refine ⟨?_, ?_, pairwise_sortDesc _, by decide⟩
  · calc (calculateTotals s p).length = (s.map (lineOf p)).length :=
        (sortDesc_perm (s.map (lineOf p))).length_eq
      _ = s.length := by simp
  · intro kv hkv
    exact (sortDesc_perm (s.map (lineOf p))).mem_iff.mpr (List.mem_map_of_mem _ hkv)

/-- C4 witness: the amended claim instantiated at the example state and
rate 20. -/
theorem c4_witness :
    20 ≤ 100 ∧
    ((calculateTotals exState 20).length = exState.length ∧
    (∀ kv ∈ exState,
      ({ dni := kv.1, name := kv.2.name, salesCount := kv.2.sales.length,
         totalSales := totalOfSales kv.2.sales,
         bonus := jsBonus (totalOfSales kv.2.sales) 20 } : BonusLine) ∈ calculateTotals exState 20) ∧
    (calculateTotals exState 20).Pairwise (fun a b => b.totalSales ≤ a.totalSales) ∧
    calculateTotals exState 20 =
      [{ dni := chars "AAA11111", name := chars "Ana", salesCount := 1, totalSales := 1000, bonus := 200 },
       { dni := chars "BBB22222", name := chars "Bea", salesCount := 1, totalSales := 500, bonus := 100 }]) :=
  ⟨by decide, c4_amended exState 20 (by decide)⟩

def c1msg : Msg :=
  { content := chars "ha pagado una factura de [ABC12345] Pepe ha retirado", createdAt := 5, id := 11 }

/-- C1 counterexample: the claim says a pattern-1 SALE candidate never
reaches the name-update branch even when the sale is rejected; but the two
checks of processLog are independent if statements, so this candidate with
a null amount falls through, and processing it creates a display name. -/
theorem c1_counterexample :
    hasSub (chars "ha pagado una factura") (toLowerL (cleanText c1msg.content)) = true ∧
    hasSub (chars "de [") (toLowerL (cleanText c1msg.content)) = true ∧
    extractAmount c1msg.content = 0 ∧
    nameOf? ([] : State) (chars "ABC12345") = none ∧
    nameOf? (processLog [] c1msg).2 (chars "ABC12345") = some (chars "Pepe") := by decide

/-- C1 (amended): a pattern-1 SALE candidate skips the name-update branch
only when the sale is accepted (identifier non-null and amount positive):
then processing returns true, modifies no existing display name, and a
record created for a new identifier gets the identifier itself as display
name; when the sale is rejected the message falls through to the
name-update check. -/
theorem c1_amended (s : State) (m : Msg) (d : List Char)
    (hc : saleCandidate m = true) (hd : extractDNI m.content = some d)
    (ha : 0 < extractAmount m.content) :
    (processLog s m).1 = true ∧
    (∀ k e, findEmp k s = some e →
      ∃ e2, findEmp k (processLog s m).2 = some e2 ∧ e2.name = e.name) ∧
    (findEmp d s = none →
      findEmp d (processLog s m).2 = some { name := d, sales := [saleOf m] }) := by
  rw [processLog_sale s m d hc hd ha]
  refine ⟨rfl, ?_, ?_⟩
  · intro k e hk
    by_cases hkd : k = d
    · subst hkd
      refine ⟨_, findEmp_setEmp_self k _ s, ?_⟩
      simp [nameOf?, hk]
    · exact ⟨e, by rw [findEmp_setEmp_ne k d _ s hkd]; exact hk, rfl⟩
  · intro hnone
    rw [findEmp_setEmp_self]
    simp [nameOf?, salesOf, hnone]

def w1msg : Msg :=
  { content := chars "ha pagado una factura de [XAB12345] $200", createdAt := 8, id := 21 }

/-- C1 witness: the amended claim at an accepted sale message on the
empty state. -/
theorem c1_witness :
    saleCandidate w1msg = true ∧ extractDNI w1msg.content = some (chars "XAB12345") ∧
    0 < extractAmount w1msg.content ∧
    ((processLog [] w1msg).1 = true ∧
     (∀ k e, findEmp k ([] : State) = some e →
       ∃ e2, findEmp k (processLog [] w1msg).2 = some e2 ∧ e2.name = e.name) ∧
     (findEmp (chars "XAB12345") ([] : State) = none →
       findEmp (chars "XAB12345") (processLog [] w1msg).2
         = some { name := chars "XAB12345", sales := [saleOf w1msg] })) :=
  ⟨by decide, by decide, by decide,
   c1_amended [] w1msg (chars "XAB12345") (by decide) (by decide) (by decide)⟩

/-- C5: sale recording is not idempotent: processing the same sale message
twice appends two identical SaleEvents (same messageId) and raises the
total by twice the amount; no deduplication against the message id. -/
theorem c5 (s : State) (m : Msg) (d : List Char)
    (hc : saleCandidate m = true) (hd : extractDNI m.content = some d)
    (ha : 0 < extractAmount m.content) :
    (processLog s m).1 = true ∧
    (processLog (processLog s m).2 m).1 = true ∧
    salesOf (processLog (processLog s m).2 m).2 d = salesOf s d ++ [saleOf m, saleOf m] ∧
    totalOfSales (salesOf (processLog (processLog s m).2 m).2 d)
      = totalOfSales (salesOf s d) + 2 * extractAmount m.content := by
  have h1 := processLog_sale s m d hc hd ha
  have h2 := processLog_sale
    (setEmp d { name := (nameOf? s d).getD d, sales := salesOf s d ++ [saleOf m] } s) m d hc hd ha
  rw [h1]
  dsimp only
  rw [h2]
  dsimp only
  refine ⟨rfl, rfl, ?_, ?_⟩
  · rw [salesOf_setEmp_self]
    dsimp only
    rw [salesOf_setEmp_self]
    simp
  · rw [salesOf_setEmp_self]
    dsimp only
    rw [salesOf_setEmp_self]
    dsimp only
    rw [List.append_assoc, totalOfSales_append]
    have h3 : totalOfSales ([saleOf m] ++ [saleOf m])
        = 0 + extractAmount m.content + extractAmount m.content := rfl
    rw [h3]
    omega

def w5msg : Msg :=
  { content := chars "ha pagado una factura de [QRS54321] $75", createdAt := 2, id := 31 }

/-- C5 witness: the double-count at a concrete sale message replayed on
the empty state. -/
theorem c5_witness :
    saleCandidate w5msg = true ∧ extractDNI w5msg.content = some (chars "QRS54321") ∧
    0 < extractAmount w5msg.content ∧
    ((processLog [] w5msg).1 = true ∧
     (processLog (processLog [] w5msg).2 w5msg).1 = true ∧
     salesOf (processLog (processLog [] w5msg).2 w5msg).2 (chars "QRS54321")
       = salesOf ([] : State) (chars "QRS54321") ++ [saleOf w5msg, saleOf w5msg] ∧
     totalOfSales (salesOf (processLog (processLog [] w5msg).2 w5msg).2 (chars "QRS54321"))
       = totalOfSales (salesOf ([] : State) (chars "QRS54321")) + 2 * extractAmount w5msg.content) :=
  ⟨by decide, by decide, by decide,
   c5 [] w5msg (chars "QRS54321") (by decide) (by decide) (by decide)⟩

def c6msg : Msg :=
  { content := chars "ha pagado una factura de [XYZ99999] Luis ha guardado", createdAt := 4, id := 13 }

/-- C6 counterexample: a sale-candidate line with a non-null identifier
and amount 0 is claimed to leave the state completely unchanged, but the
fall-through to the name-update branch creates an employee record. -/
theorem c6_counterexample :
    saleCandidate c6msg = true ∧
    extractDNI c6msg.content = some (chars "XYZ99999") ∧
    extractAmount c6msg.content = 0 ∧
    (processLog [] c6msg).2 = [(chars "XYZ99999", { name := chars "Luis", sales := [] })] ∧
    (processLog [] c6msg).2 ≠ ([] : State) := by decide

/-- C6 (amended): for every sale-candidate line with a non-null identifier
and amount 0, processing records no SaleEvent (every employee's sale list
is unchanged) and returns false; the state is otherwise unchanged except
that the fall-through name-update branch may create or update a display
name. -/
theorem c6_amended (s : State) (m : Msg) (d : List Char)
    (hc : saleCandidate m = true) (hd : extractDNI m.content = some d)
    (ha : extractAmount m.content = 0) :
    (processLog s m).1 = false ∧
    ∀ k, salesOf (processLog s m).2 k = salesOf s k := by
  have hns : saleAccepted m = false := by
    simp [saleAccepted, hc, hd, ha]
  rw [processLog_notSale s m hns]
  unfold nameBranch
  by_cases hnc : nameCandidate m = true
  · simp only [hnc, if_true]
    rw [hd]
    cases hn : extractName m.content with
    | none => exact ⟨rfl, fun k => rfl⟩
    | some n =>
      dsimp only
      cases hf : findEmp d s with
      | none =>
        dsimp only
        refine ⟨rfl, ?_⟩
        intro k
        by_cases hkd : k = d
        · subst hkd
          rw [salesOf_setEmp_self]
          simp [salesOf, hf]
        · exact salesOf_setEmp_ne k d _ s hkd
      | some e =>
        dsimp only
        refine ⟨rfl, ?_⟩
        intro k
        by_cases hkd : k = d
        · subst hkd
          rw [salesOf_setEmp_self]
          simp [salesOf, hf]
        · exact salesOf_setEmp_ne k d _ s hkd
  · simp only [Bool.not_eq_true] at hnc
    simp only [hnc, if_false]
    exact ⟨rfl, fun k => rfl⟩

def w6msg : Msg :=
  { content := chars "ha pagado una factura de [QWE11111]", createdAt := 1, id := 41 }

/-- C6 witness: the amended claim at a concrete identifier-only candidate
on the empty state. -/
theorem c6_witness :
    saleCandidate w6msg = true ∧ extractDNI w6msg.content = some (chars "QWE11111") ∧
    extractAmount w6msg.content = 0 ∧
    ((processLog [] w6msg).1 = false ∧
     ∀ k, salesOf (processLog [] w6msg).2 k = salesOf ([] : State) k) :=
  ⟨by decide, by decide, by decide,
   c6_amended [] w6msg (chars "QWE11111") (by decide) (by decide) (by decide)⟩

/-- C7: a name-update line with both an identifier and a name upserts the
display name: a new identifier gets a record with that name and an empty
sale list, an existing identifier keeps its sale list and every other
employee record is untouched. -/
theorem c7 (s : State) (m : Msg) (d n : List Char)
    (hnc : nameCandidate m = true)
    (hns : saleAccepted m = false)
    (hd : extractDNI m.content = some d)
    (hn : extractName m.content = some n) :
    (processLog s m).1 = false ∧
    findEmp d (processLog s m).2 = some { name := n, sales := salesOf s d } ∧
    ∀ k, k ≠ d → findEmp k (processLog s m).2 = findEmp k s := by
  rw [processLog_notSale s m hns, nameBranch_upsert s m d n hnc hd hn]
  exact ⟨rfl, findEmp_setEmp_self d _ s, fun k hk => findEmp_setEmp_ne k d _ s hk⟩

def w7msg : Msg :=
  { content := chars "[RTY22222] Maria ha guardado dinero", createdAt := 9, id := 51 }

def w7state : State :=
  [(chars "RTY22222",
    { name := chars "RTY22222", sales := [{ amount := 100, date := 1, messageId := 3 }] })]

/-- C7 witness: a concrete name update over an existing record keeps the
sale list and overwrites the display name. -/
theorem c7_witness :
    nameCandidate w7msg = true ∧ saleAccepted w7msg = false ∧
    extractDNI w7msg.content = some (chars "RTY22222") ∧
    extractName w7msg.content = some (chars "Maria") ∧
    ((processLog w7state w7msg).1 = false ∧
     findEmp (chars "RTY22222") (processLog w7state w7msg).2
       = some { name := chars "Maria", sales := salesOf w7state (chars "RTY22222") } ∧
     ∀ k, k ≠ chars "RTY22222" → findEmp k (processLog w7state w7msg).2 = findEmp k w7state) :=
  ⟨by decide, by decide, by decide, by decide,
   c7 w7state w7msg (chars "RTY22222") (chars "Maria") (by decide) (by decide) (by decide) (by decide)⟩

def posSalesB (e : Employee) : Bool := e.sales.all (fun sa => 0 < sa.amount)

def allPosB (s : State) : Bool := s.all (fun kv => posSalesB kv.2)

theorem allPosB_setEmp (k : List Char) (e : Employee) (he : posSalesB e = true) :
    ∀ s : State, allPosB s = true → allPosB (setEmp k e s) = true := by
  intro s
  induction s with
  | nil => intro _; simp [setEmp, allPosB, he]
  | cons kv rest ih =>
    intro h
    obtain ⟨k2, e2⟩ := kv
    simp only [allPosB, List.all_cons, Bool.and_eq_true] at h
    by_cases h2 : k2 = k
    · have hs : setEmp k e ((k2, e2) :: rest) = (k, e) :: rest := by simp [setEmp, h2]
      rw [hs]
      simp only [allPosB, List.all_cons, Bool.and_eq_true]
      exact ⟨he, h.2⟩
    · have hr := ih h.2
      have hs : setEmp k e ((k2, e2) :: rest) = (k2, e2) :: setEmp k e rest := by
        simp [setEmp, h2]
      rw [hs]
      simp only [allPosB, List.all_cons, Bool.and_eq_true]
      exact ⟨h.1, hr⟩

theorem salesOf_allPos (k : List Char) :
    ∀ s : State, allPosB s = true → (salesOf s k).all (fun sa => 0 < sa.amount) = true := by
  intro s
  induction s with
  | nil => intro _; simp [salesOf, findEmp]
  | cons kv rest ih =>
    intro h
    obtain ⟨k2, e2⟩ := kv
    simp only [allPosB, List.all_cons, Bool.and_eq_true] at h
    by_cases h2 : k2 = k
    · have hs : salesOf ((k2, e2) :: rest) k = e2.sales := by simp [salesOf, findEmp, h2]
      rw [hs]
      exact h.1
    · have hs : salesOf ((k2, e2) :: rest) k = salesOf rest k := by simp [salesOf, findEmp, h2]
      rw [hs]
      exact ih h.2

theorem allPosB_nameBranch (s : State) (m : Msg) (h : allPosB s = true) :
    allPosB (nameBranch s m).2 = true := by
  unfold nameBranch
  by_cases hnc : nameCandidate m = true
  · simp only [hnc, if_true]
    cases hdni : extractDNI m.content with
    | none => simpa using h
    | some d =>
      cases hn : extractName m.content with
      | none => simpa using h
      | some n =>
        dsimp only
        cases hf : findEmp d s with
        | none =>
          dsimp only
          exact allPosB_setEmp d _ (by simp [posSalesB]) s h
        | some e =>
          dsimp only
          refine allPosB_setEmp d _ ?_ s h
          have hp := salesOf_allPos d s h
          rw [show salesOf s d = e.sales by simp [salesOf, hf]] at hp
          simpa [posSalesB] using hp
  · simp only [Bool.not_eq_true] at hnc
    simp only [hnc, if_false]
    exact h

/-- C10: every stored sale amount is strictly positive: the empty state
and the reset state satisfy the invariant, and processLog preserves it,
because a SaleEvent is appended only under the positive-amount guard. -/
theorem c10 (s : State) (m : Msg) (h : allPosB s = true) :
    allPosB (processLog s m).2 = true ∧
    allPosB ([] : State) = true ∧
    allPosB resetWeek = true := by
  refine ⟨?_, by decide, by decide⟩
  by_cases hsa : saleAccepted m = true
  · obtain ⟨d, hd⟩ : ∃ d, extractDNI m.content = some d := by
      unfold saleAccepted at hsa
      cases hdni : extractDNI m.content with
      | none => rw [hdni] at hsa; simp at hsa
      | some d => exact ⟨d, rfl⟩
    have hc : saleCandidate m = true := by
      unfold saleAccepted at hsa
      exact ((Bool.and_eq_true _ _).mp hsa).1
    have ha : 0 < extractAmount m.content := by
      unfold saleAccepted at hsa
      rw [hd] at hsa
      simpa using ((Bool.and_eq_true _ _).mp hsa).2
    rw [processLog_sale s m d hc hd ha]
    dsimp only
    refine allPosB_setEmp d _ ?_ s h
    have hp := salesOf_allPos d s h
    simp [posSalesB, List.all_append, hp, ha, saleOf]
  · rw [processLog_notSale s m (by simpa using hsa)]
    exact allPosB_nameBranch s m h

def w10msg : Msg :=
  { content := chars "ha pagado una factura de [ZXC88888] $33", createdAt := 6, id := 61 }

def w10state : State :=
  [(chars "ZXC88888",
    { name := chars "Zoe", sales := [{ amount := 5, date := 1, messageId := 2 }] })]

/-- C10 witness: the invariant preserved through a concrete accepted sale
on a concrete all-positive state. -/
theorem c10_witness :
    allPosB w10state = true ∧
    (allPosB (processLog w10state w10msg).2 = true ∧
     allPosB ([] : State) = true ∧
     allPosB resetWeek = true) :=
  ⟨by decide, c10 w10state w10msg (by decide)⟩

theorem growName_nonH : ∀ l g : List Char, growName l = some g → g.all (fun c => !(isH c)) = true := by
  intro l
  induction l with
  | nil => intro g h; simp [growName] at h
  | cons c rest ih =>
    intro g h
    simp only [growName] at h
    by_cases hH : isH c = true
    · rw [hH] at h
      simp at h
    · simp only [Bool.not_eq_true] at hH
      rw [hH] at h
      simp only [Bool.false_eq_true, if_false] at h
      by_cases hv : verbTail rest = true
      · rw [hv] at h
        simp only [if_true] at h
        cases h
        simp [hH]
      · simp only [Bool.not_eq_true] at hv
        rw [hv] at h
        simp only [Bool.false_eq_true, if_false] at h
        cases hg : growName rest with
        | none => rw [hg] at h; simp at h
        | some g2 =>
          rw [hg] at h
          simp only [Option.some.injEq] at h
          subst h
          simp only [List.all_cons, Bool.and_eq_true]
          exact ⟨by simp [hH], ih g2 hg⟩

theorem nameAt_nonH (l g : List Char) (h : nameAt l = some g) :
    g.all (fun c => !(isH c)) = true := by
  unfold nameAt at h
  split at h
  · split at h
    · exact absurd h (by simp)
    · split at h
      · split at h
        · exact absurd h (by simp)
        · exact growName_nonH _ g h
      · exact absurd h (by simp)
  · exact absurd h (by simp)

theorem scanName_nonH : ∀ l g : List Char, scanName l = some g → g.all (fun c => !(isH c)) = true := by
  intro l
  induction l with
  | nil => intro g h; simp [scanName] at h
  | cons c rest ih =>
    intro g h
    simp only [scanName] at h
    cases hna : nameAt (c :: rest) with
    | none => rw [hna] at h; exact ih g h
    | some g2 =>
      rw [hna] at h
      simp only [Option.some.injEq] at h
      subst h
      exact nameAt_nonH _ g2 hna

theorem all_dropWhile (p q : Char → Bool) :
    ∀ l : List Char, l.all q = true → (l.dropWhile p).all q = true := by
  intro l
  induction l with
  | nil => intro _; simp
  | cons c rest ih =>
    intro h
    simp only [List.all_cons, Bool.and_eq_true] at h
    by_cases hp : p c = true
    · simp only [List.dropWhile, hp, if_true]
      exact ih h.2
    · simp only [Bool.not_eq_true] at hp
      simp only [List.dropWhile, hp, Bool.false_eq_true, if_false, List.all_cons,
        Bool.and_eq_true]
      exact h

theorem all_reverse (q : Char → Bool) (l : List Char) :
    l.reverse.all q = l.all q := by
  simp [List.all_eq_true]

theorem trimL_all (q : Char → Bool) (l : List Char) (h : l.all q = true) :
    (trimL l).all q = true := by
  unfold trimL
  rw [all_reverse]
  apply all_dropWhile
  rw [all_reverse]
  exact all_dropWhile _ _ l h

/-- C9: whenever name extraction returns a name, that name contains no h,
upper- or lower-case: the negated character class of the i-flagged regex
excludes both, so a display name containing an h can never be produced in
full by extractName. -/
theorem c9 (t n : List Char) (h : extractName t = some n) :
    n.all (fun c => !(c == 'h' || c == 'H')) = true := by
  unfold extractName at h
  cases hs : scanName (cleanText t) with
  | none => rw [hs] at h; simp at h
  | some g =>
    rw [hs] at h
    simp only [Option.some.injEq] at h
    subst h
    exact trimL_all _ g (scanName_nonH _ g hs)

def w9text : List Char := chars "[JKL11111] Ana ha enviado dinero"

/-- C9 witness: a concrete extraction whose result Ana indeed contains no
h of either case. -/
theorem c9_witness :
    extractName w9text = some (chars "Ana") ∧
    (chars "Ana").all (fun c => !(c == 'h' || c == 'H')) = true :=
  ⟨by decide, c9 w9text (chars "Ana") (by decide)⟩

theorem pageScan_total (sd : Option Nat) (L : Nat) :
    ∀ (page : List Msg) (t : Nat), t < L → (pageScan sd (some L) page t).2.1 ≤ L := by
  intro page
  induction page with
  | nil =>
    intro t ht
    simp only [pageScan]
    omega
  | cons m rest ih =>
    intro t ht
    simp only [pageScan]
    by_cases hskip : sdSkip sd m = true
    · simp only [hskip, if_true]
      exact ih t ht
    · simp only [Bool.not_eq_true] at hskip
      simp only [hskip, Bool.false_eq_true, if_false]
      by_cases hlim : limHit (some L) (t + 1) = true
      · simp only [hlim, if_true]
        exact ht
      · have ht1 : t + 1 < L := by
          simp only [limHit, decide_eq_true_eq] at hlim
          omega
        simp only [Bool.not_eq_true] at hlim
        simp only [hlim, Bool.false_eq_true, if_false]
        have ih2 := ih (t + 1) ht1
        rcases hps : pageScan sd (some L) rest (t + 1) with ⟨c, t2, b⟩
        rw [hps] at ih2
        simpa using ih2

theorem pageScan_len (sd lim : Option Nat) :
    ∀ (page : List Msg) (t : Nat),
      (pageScan sd lim page t).2.1 = t + (pageScan sd lim page t).1.length := by
  intro page
  induction page with
  | nil => intro t; simp [pageScan]
  | cons m rest ih =>
    intro t
    simp only [pageScan]
    by_cases hskip : sdSkip sd m = true
    · simp only [hskip, if_true]
      exact ih t
    · simp only [Bool.not_eq_true] at hskip
      simp only [hskip, Bool.false_eq_true, if_false]
      by_cases hlim : limHit lim (t + 1) = true
      · simp [hlim]
      · simp only [Bool.not_eq_true] at hlim
        simp only [hlim, Bool.false_eq_true, if_false]
        have ih2 := ih (t + 1)
        rcases hps : pageScan sd lim rest (t + 1) with ⟨c, t2, b⟩
        rw [hps] at ih2
        simp only at ih2 ⊢
        simp only [List.length_cons]
        omega

theorem fetchGo_total (sd : Option Nat) (L : Nat) :
    ∀ (fuel : Nat) (hist : List Msg) (t : Nat), t < L →
      (fetchGo sd (some L) fuel hist t).2 ≤ L := by
  intro fuel
  induction fuel with
  | zero =>
    intro hist t ht
    simp only [fetchGo]
    omega
  | succ fuel ih =>
    intro hist t ht
    cases hist with
    | nil =>
      simp only [fetchGo]
      omega
    | cons m hs =>
      simp only [fetchGo]
      have htot := pageScan_total sd L ((m :: hs).take 100) t ht
      rcases hps : pageScan sd (some L) ((m :: hs).take 100) t with ⟨c, t1, broke⟩
      rw [hps] at htot
      simp only at htot
      by_cases hb : broke = true
      · simp only [hb, if_true]
        exact htot
      · simp only [Bool.not_eq_true] at hb
        simp only [hb, Bool.false_eq_true, if_false]
        by_cases hl : limHit (some L) t1 = true
        · simp only [hl, if_true]
          exact htot
        · have ht1 : t1 < L := by
            simp only [limHit, decide_eq_true_eq] at hl
            omega
          simp only [Bool.not_eq_true] at hl
          simp only [hl, Bool.false_eq_true, if_false]
          by_cases hlen : ((m :: hs).take 100).length < 100
          · simp only [hlen, if_true]
            exact htot
          · simp only [hlen, if_false]
            have ihr := ih ((m :: hs).drop 100) t1 ht1
            rcases hfg : fetchGo sd (some L) fuel ((m :: hs).drop 100) t1 with ⟨c2, t2⟩
            rw [hfg] at ihr
            simpa using ihr

theorem fetchGo_len (sd lim : Option Nat) :
    ∀ (fuel : Nat) (hist : List Msg) (t : Nat),
      (fetchGo sd lim fuel hist t).2 = t + (fetchGo sd lim fuel hist t).1.length := by
  intro fuel
  induction fuel with
  | zero => intro hist t; simp [fetchGo]
  | succ fuel ih =>
    intro hist t
    cases hist with
    | nil => simp [fetchGo]
    | cons m hs =>
      simp only [fetchGo]
      have hpl := pageScan_len sd lim ((m :: hs).take 100) t
      rcases hps : pageScan sd lim ((m :: hs).take 100) t with ⟨c, t1, broke⟩
      rw [hps] at hpl
      simp only at hpl
      by_cases hb : broke = true
      · simp only [hb, if_true]
        exact hpl
      · simp only [Bool.not_eq_true] at hb
        simp only [hb, Bool.false_eq_true, if_false]
        by_cases hl : limHit lim t1 = true
        · simp only [hl, if_true]
          exact hpl
        · simp only [Bool.not_eq_true] at hl
          simp only [hl, Bool.false_eq_true, if_false]
          by_cases hlen : ((m :: hs).take 100).length < 100
          · simp only [hlen, if_true]
            exact hpl
          · simp only [hlen, if_false]
            have ihr := ih ((m :: hs).drop 100) t1
            rcases hfg : fetchGo sd lim fuel ((m :: hs).drop 100) t1 with ⟨c2, t2⟩
            rw [hfg] at ihr
            simp only at ihr ⊢
            simp only [List.length_append]
            omega

theorem processAll_le : ∀ (ms : List Msg) (s : State), (processAll s ms).2 ≤ ms.length := by
  intro ms
  induction ms with
  | nil => intro s; simp [processAll]
  | cons m rest ih =>
    intro s
    simp only [processAll]
    rcases h1 : processLog s m with ⟨r, s1⟩
    have ih2 := ih s1
    rcases h2 : processAll s1 rest with ⟨s2, n⟩
    rw [h2] at ih2
    simp only at ih2 ⊢
    simp only [List.length_cons]
    by_cases hr : r = true
    · simp [hr]; omega
    · simp only [Bool.not_eq_true] at hr
      simp [hr]; omega

/-- C8: backfill by count 50 on a history longer than 50 fetches at most
50 messages, and on every run the count of messages classified as sales is
at most the count of messages fetched. -/
theorem c8 (hist : List Msg) (s : State) (hlen : 50 < hist.length) :
    (runBackfill s hist none (some 50)).totalFetched ≤ 50 ∧
    ∀ (sd lim : Option Nat) (s2 : State),
      (runBackfill s2 hist sd lim).processed ≤ (runBackfill s2 hist sd lim).totalFetched := by
  constructor
  · show (fetchGo none (some 50) hist.length hist 0).2 ≤ 50
    exact fetchGo_total none 50 hist.length hist 0 (by omega)
  · intro sd lim s2
    show (processAll s2 (fetchGo sd lim hist.length hist 0).1.reverse).2
        ≤ (fetchGo sd lim hist.length hist 0).2
    have hpa := processAll_le (fetchGo sd lim hist.length hist 0).1.reverse s2
    have hle := fetchGo_len sd lim hist.length hist 0
    simp only [List.length_reverse] at hpa
    omega

def w8msg : Msg := { content := chars "registro sin contenido util", createdAt := 0, id := 0 }

def w8hist : List Msg := List.replicate 60 w8msg

/-- C8 witness: a 60-message history, backfilled by count 50. -/
theorem c8_witness :
    50 < w8hist.length ∧
    ((runBackfill [] w8hist none (some 50)).totalFetched ≤ 50 ∧
     ∀ (sd lim : Option Nat) (s2 : State),
       (runBackfill s2 w8hist sd lim).processed ≤ (runBackfill s2 w8hist sd lim).totalFetched) :=
  ⟨by decide, c8 w8hist [] (by decide)⟩
